import Mathlib

/-!
Shallow embedding of `src/dehashed_excerpt.py` (the Excerpt Builder).

Strings are modelled as Lean `String` (a list of characters).  Python's
`str.strip` is modelled by `pyStrip` (ASCII whitespace; the inputs of
interest are ASCII), `str.lower` by `strLower` via `Char.toLower`
(ASCII case folding), and the Python `set` of breach values by
`Finset String`.  The CSV layer (file IO, quoting) is outside the model:
the pipeline `run` takes the already-parsed records, the first being the
header row, exactly as `csv.reader` hands them to `main`.
-/

namespace Dehashed

/-- ASCII whitespace as stripped by Python's `str.strip` (space, tab,
newline, carriage return, vertical tab, form feed). -/
def isPySpace (c : Char) : Bool :=
  c == ' ' || c == '\t' || c == '\n' || c == '\r' || c == Char.ofNat 11 || c == Char.ofNat 12

/-- Python `s.strip()`: drop leading and trailing whitespace. -/
def pyStrip (s : String) : String :=
  String.mk (((s.data.dropWhile isPySpace).reverse.dropWhile isPySpace).reverse)

/-- The function `normalize` of the script: `(s or "").strip()`. -/
def normalize (s : String) : String := pyStrip s

/-- Python `s.lower()` (ASCII range; the headers and domains compared here
are ASCII). -/
def strLower (s : String) : String := String.mk (s.data.map Char.toLower)

/-- The `ALIASES` table of the script: built-in header-name synonyms per
role; unknown roles get the empty set (`ALIASES.get(prefer, set())`). -/
def ALIASES (role : String) : List String :=
  if role = "email" then ["email", "email_address", "e-mail", "mail", "addr", "address_email"]
  else if role = "name" then ["name", "full_name", "fullname", "display_name"]
  else if role = "first" then ["first_name", "firstname", "given_name", "givenname", "first"]
  else if role = "last" then ["last_name", "lastname", "surname", "family_name", "familyname", "last"]
  else if role = "breach" then ["breach", "source", "database", "breach_name"]
  else []

/-- Does the character list start with the given pattern? -/
def listStartsWith : List Char → List Char → Bool
  | _, [] => true
  | [], _ :: _ => false
  | c :: cs, d :: ds => c == d && listStartsWith cs ds

/-- Python's substring test `p in l` over character lists. -/
def containsSub (p : List Char) : List Char → Bool
  | [] => listStartsWith [] p
  | c :: cs => listStartsWith (c :: cs) p || containsSub p cs

/-- The function `choose_col` of the script: `None` on an empty header; otherwise, if
an explicit (truthy, i.e. non-empty) column name was supplied, first an
exact match of its lowercasing against the lowercased header, then a
substring match; falling through to the built-in alias set in all cases. -/
def choose_col (header_lower : List String) (prefer : String) (explicit : Option String) :
    Option Nat :=
  if header_lower = [] then none
  else
    let viaExplicit : Option Nat :=
      match explicit with
      | some e =>
        if e = "" then none
        else
          let p := strLower e
          match header_lower.findIdx? (fun h => h == p) with
          | some i => some i
          | none => header_lower.findIdx? (fun h => containsSub p.data h.data)
      | none => none
    match viaExplicit with
    | some i => some i
    | none => header_lower.findIdx? (fun h => (ALIASES prefer).contains h)

/-- The candidate delimiters of `detect_dialect`, in the insertion order of
the Python `counts` dict. -/
def CANDIDATES : List Char := [',', ';', '\t', '|', ':']

/-- Python `sample.count(c)` for a single character. -/
def countChar (s : String) (c : Char) : Nat := s.data.count c

/-- The fallback branch of `detect_dialect` (taken when `csv.Sniffer`
raises): `max(counts, key=counts.get) if sample else ","`.  Python's `max`
keeps the first key whose count is maximal, scanning the candidates in
dict order starting from `','`. -/
def fallbackDelim (sample : String) : Char :=
  if sample = "" then ','
  else List.foldl (fun best c => if countChar sample c > countChar sample best then c else best)
    ',' [';', '\t', '|', ':']

/-- The function `build_name` of the script: the name column's value when resolved,
in-range and non-empty after stripping, else first and last joined with a
space (omitted when either part is empty), stripped. -/
def build_name (row : List String) (idx_name idx_first idx_last : Option Nat) : String :=
  let name :=
    match idx_name with
    | some i => if i < row.length then normalize (row.getD i "") else ""
    | none => ""
  if name ≠ "" then name
  else
    let fn :=
      match idx_first with
      | some i => if i < row.length then normalize (row.getD i "") else ""
      | none => ""
    let ln :=
      match idx_last with
      | some i => if i < row.length then normalize (row.getD i "") else ""
      | none => ""
    pyStrip (fn ++ (if fn ≠ "" ∧ ln ≠ "" then " " else "") ++ ln)

/-- The leftmost match of the regex `@([^>]+)$` in `email_domain`: scanning
left to right, the group is the suffix after the first `@` whose suffix is
non-empty and free of `>` and runs to the end of the string. -/
def emailDomainChars : List Char → Option (List Char)
  | [] => none
  | c :: t => if c = '@' ∧ t ≠ [] ∧ '>' ∉ t then some t else emailDomainChars t

/-- The function `email_domain` of the script: the matched group of `@([^>]+)$`,
lowercased, or the empty string when the regex does not match. -/
def email_domain (email : String) : String :=
  match emailDomainChars email.data with
  | some t => strLower (String.mk t)
  | none => ""

/-- The preferred-domain-miss component of the rank key (line 191 of the
script): `0 if (args.prefer_domain and dom == args.prefer_domain.lower())
else 1`, where a `None` or empty preferred domain is falsy. -/
def preferHit (prefer_domain : Option String) (email : String) : Nat :=
  match prefer_domain with
  | some d => if d ≠ "" ∧ email_domain email = strLower d then 0 else 1
  | none => 1

/-- A rank key: (preferred-domain-miss, no-name, first-seen index). -/
abbrev Key : Type := Nat × Nat × Nat

/-- A working-list item: rank key paired with the display string. -/
abbrev Item : Type := Key × String

/-- The breach-set update of the row loop: when a breach column is
resolved and in range, insert the stripped value if non-empty. -/
def breachUpd (idx_breach : Option Nat) (br : Finset String) (row : List String) :
    Finset String :=
  match idx_breach with
  | some i =>
    if i < row.length then
      let b := normalize (row.getD i "")
      if b = "" then br else insert b br
    else br
  | none => br

/-- The working-list update of the row loop: skip the row when no email
column is resolved, the index is out of range, or the stripped email is
empty; otherwise append the (rank key, display) pair, the display being
`f"{name} <{email}>"` when a name was built and the bare email otherwise. -/
def itemsUpd (idx_email idx_name idx_first idx_last : Option Nat)
    (prefer_domain : Option String) (items : List Item) (row : List String) : List Item :=
  match idx_email with
  | none => items
  | some i =>
    if i < row.length then
      let email := normalize (row.getD i "")
      if email = "" then items
      else
        let name := build_name row idx_name idx_first idx_last
        let display := if name = "" then email else name ++ " <" ++ email ++ ">"
        items ++ [((preferHit prefer_domain email, if name = "" then 1 else 0, items.length),
          display)]
    else items

/-- One iteration of the row loop: breach accounting happens before (and
independently of) the email-row checks. -/
def step (idx_email idx_name idx_first idx_last idx_breach : Option Nat)
    (prefer_domain : Option String) (st : List Item × Finset String) (row : List String) :
    List Item × Finset String :=
  (itemsUpd idx_email idx_name idx_first idx_last prefer_domain st.1 row,
   breachUpd idx_breach st.2 row)

/-- The whole row scan over the data rows. -/
def processRows (idx_email idx_name idx_first idx_last idx_breach : Option Nat)
    (prefer_domain : Option String) (rows : List (List String)) :
    List Item × Finset String :=
  rows.foldl (step idx_email idx_name idx_first idx_last idx_breach prefer_domain) ([], ∅)

/-- The ascending lexicographic order on rank keys used by
`items.sort(key=lambda x: x[0])`. -/
def keyLe (a b : Key) : Prop :=
  a.1 < b.1 ∨ (a.1 = b.1 ∧ (a.2.1 < b.2.1 ∨ (a.2.1 = b.2.1 ∧ a.2.2 ≤ b.2.2)))

instance : DecidableRel keyLe := fun a b => by unfold keyLe; exact inferInstance

/-- Item comparison: by rank key. -/
def itemLe (x y : Item) : Prop := keyLe x.1 y.1

instance : DecidableRel itemLe := fun x y => by unfold itemLe; exact inferInstance

instance : IsTotal Item itemLe := ⟨by intro a b; unfold itemLe keyLe; omega⟩

instance : IsTrans Item itemLe := ⟨by intro a b c; unfold itemLe keyLe; omega⟩

/-- The sort `items.sort(key=lambda x: x[0])` of the script.  Python's sort is stable, and
insertion sort with a total `≤` is the stable sort; moreover the third key
component (the first-seen counter) is unique within a run, so the sorted
list is the unique `keyLe`-sorted permutation. -/
def sortItems (l : List Item) : List Item := List.insertionSort itemLe l

/-- The dedup-and-truncate loop over the sorted working list: skip a
display already emitted, otherwise append it, and stop as soon as the
emitted length reaches the limit (the length test happens after the
append, as in the script). -/
def dedupTake (limit : Nat) (acc : List String) : List Item → List String
  | [] => acc
  | it :: rest =>
    if it.2 ∈ acc then dedupTake limit acc rest
    else if limit ≤ acc.length + 1 then acc ++ [it.2]
    else dedupTake limit (acc ++ [it.2]) rest

/-- The configuration surface of `main` that the pipeline depends on. -/
structure Config where
  limit : Nat
  email_col : Option String
  name_col : Option String
  first_col : Option String
  last_col : Option String
  breach_col : Option String
  prefer_domain : Option String
deriving DecidableEq

/-- The five resolved column indices. -/
structure Cols where
  email : Option Nat
  name : Option Nat
  first : Option Nat
  last : Option Nat
  breach : Option Nat
deriving DecidableEq

/-- The lowercased header `[normalize(h).lower() for h in header]`. -/
def headerLower (header : List String) : List String :=
  header.map (fun h => strLower (normalize h))

/-- Column resolution of `main` (lines 155-159). -/
def resolveCols (cfg : Config) (header : List String) : Cols :=
  let hl := headerLower header
  ⟨choose_col hl "email" cfg.email_col,
   choose_col hl "name" cfg.name_col,
   choose_col hl "first" cfg.first_col,
   choose_col hl "last" cfg.last_col,
   choose_col hl "breach" cfg.breach_col⟩

/-- The row scan of `main` applied to the resolved columns. -/
def scanOf (cfg : Config) (header : List String) (rows : List (List String)) :
    List Item × Finset String :=
  let c := resolveCols cfg header
  processRows c.email c.name c.first c.last c.breach cfg.prefer_domain rows

/-- The sorted working list of `main`. -/
def sortedOf (cfg : Config) (header : List String) (rows : List (List String)) : List Item :=
  sortItems (scanOf cfg header rows).1

/-- The final excerpt list of `main`. -/
def excerptOf (cfg : Config) (header : List String) (rows : List (List String)) :
    List String :=
  dedupTake cfg.limit [] (sortedOf cfg header rows)

/-- The observable outcome of a run of `main` past the file open: the
excerpt, the breach count, the placeholder line printed when the excerpt
is empty, and the process exit code. -/
structure Result where
  excerpt : List String
  breached : Nat
  placeholder : Option String
  exitCode : Nat
deriving DecidableEq

/-- The function `main` from the header read onwards, on the parsed records (header
first).  An empty file (`StopIteration` on the header read) prints the
`(empty file)` placeholder with a breach count of 0 and returns normally;
otherwise the columns are resolved, the rows scanned, the working list
sorted, deduplicated and truncated, and the placeholder chosen by whether
an email column was resolved.  Every path here exits with status 0; the
fatal paths of the script (missing file, header parse error) happen before
the records exist and are outside this model. -/
def run (cfg : Config) (recs : List (List String)) : Result :=
  match recs with
  | [] => ⟨[], 0, some "(empty file)", 0⟩
  | header :: rows =>
    let excerpt := excerptOf cfg header rows
    ⟨excerpt, (scanOf cfg header rows).2.card,
     if excerpt = [] then
       (if (resolveCols cfg header).email = none then some "(no email column found)"
        else some "(no rows with emails found)")
     else none,
     0⟩

/-! Spec-side definitions, written from the specification's words, to be
compared with the embedded code. -/

/-- Spec-side reading of the domain in claim C2: the case-insensitive
substring after the last `@` in the email (empty when the email has no
`@`). -/
def domainAfterLastAt (email : String) : String :=
  if '@' ∈ email.data then
    strLower (String.mk ((email.data.reverse.takeWhile (fun c => c ≠ '@')).reverse))
  else ""

/-- Spec-side step (a) of column resolution: exact case-insensitive match
of the explicit user-supplied name (an absent or empty explicit name
matches nothing). -/
def specExplicitExact (hl : List String) (explicit : Option String) : Option Nat :=
  match explicit with
  | some e => if e = "" then none else hl.findIdx? (fun h => h == strLower e)
  | none => none

/-- Spec-side step (b) of column resolution: substring match of the
explicit user-supplied name. -/
def specExplicitSub (hl : List String) (explicit : Option String) : Option Nat :=
  match explicit with
  | some e => if e = "" then none else hl.findIdx? (fun h => containsSub (strLower e).data h.data)
  | none => none

/-- Spec-side step (c) of column resolution: membership in the role's
built-in alias set. -/
def specAliasLookup (hl : List String) (prefer : String) : Option Nat :=
  hl.findIdx? (fun h => (ALIASES prefer).contains h)

/-- Spec-side column resolution of claim C5: try (a) exact explicit match,
(b) substring explicit match, (c) alias lookup, in order; (d) none when
all fail.  The alias lookup is attempted even when an explicit name was
supplied but matched nothing. -/
def resolveSpec (hl : List String) (prefer : String) (explicit : Option String) : Option Nat :=
  match specExplicitExact hl explicit with
  | some i => some i
  | none =>
    match specExplicitSub hl explicit with
    | some i => some i
    | none => specAliasLookup hl prefer

/-- Spec-side breach set of claim C3: the distinct non-empty
whitespace-trimmed values found at the resolved breach column index across
all data rows (a row too short to have that index contributes nothing). -/
def specBreachSet (idx_breach : Option Nat) (rows : List (List String)) : Finset String :=
  match idx_breach with
  | none => ∅
  | some i =>
    rows.foldr (fun row s =>
      if i < row.length then
        (if normalize (row.getD i "") = "" then s else insert (normalize (row.getD i "")) s)
      else s) ∅

/-! Theorems settling the claims. -/

/-- Claim C1 is violated by the code: with limit 0 and one data row whose
email is non-empty, the excerpt has length 1, not 0 — the loop appends a
display line before testing the limit.  This contradicts both the claim
and the script's own help text for `--limit` ("Max number of unique
excerpt lines to show"). -/
theorem limit_zero_excerpt_nonempty :
    (run ⟨0, none, none, none, none, none, none⟩ [["email"], ["a@x.com"]]).excerpt =
      ["a@x.com"] := by
  decide

/-- Claim C4: on the concrete three-row input with header
`email,first_name,last_name,breach` and limit 10, the run returns exactly
the excerpt `["Ann Lee <a@x.com>", "b@x.com"]` and a breach count of 3. -/
theorem example_three_rows_eval :
    run ⟨10, none, none, none, none, none, none⟩
      [["email", "first_name", "last_name", "breach"],
       ["a@x.com", "Ann", "Lee", "LinkedIn"],
       ["b@x.com", "", "", "Dropbox"],
       ["a@x.com", "Ann", "Lee", "Adobe"]] =
    ⟨["Ann Lee <a@x.com>", "b@x.com"], 3, none, 0⟩ := by
  decide

/-- Claim C8: an input with no header row (empty input) is not fatal — the
result is an empty excerpt with the `(empty file)` placeholder, a breach
count of 0, and exit status 0, for every configuration. -/
theorem empty_input_not_fatal (cfg : Config) :
    run cfg [] = ⟨[], 0, some "(empty file)", 0⟩ := rfl

/-- Claim C10: breach-value distinctness is case-sensitive — an input
whose breach column holds `LinkedIn` and `linkedin` reports a breach count
of 2. -/
theorem breach_count_case_sensitive :
    (run ⟨10, none, none, none, none, none, none⟩
      [["email", "breach"], ["a@x.com", "LinkedIn"], ["b@x.com", "linkedin"]]).breached = 2 := by
  decide

/-- Counterexample to claim C2: for the email `a@b@x.com` with preferred
domain `x.com`, the claim's domain (the substring after the last `@`) is
`x.com`, equal to the preferred domain, so the claim demands a miss flag
of 0 — but the code computes the domain `b@x.com` (the regex
`@([^>]+)$` is searched for its leftmost match, i.e. after the first `@`)
and yields a miss flag of 1. -/
theorem preferHit_not_last_at :
    domainAfterLastAt "a@b@x.com" = "x.com" ∧
    email_domain "a@b@x.com" = "b@x.com" ∧
    preferHit (some "x.com") "a@b@x.com" = 1 := by
  decide

/-- The leftmost match of `@([^>]+)$`: on `a ++ '@' :: b` with no `@` in
`a` and `b` non-empty and free of `>`, the captured group is exactly
`b`. -/
theorem emailDomainChars_concat (b : List Char) (hb : '>' ∉ b) (hbne : b ≠ []) :
    ∀ a : List Char, '@' ∉ a → emailDomainChars (a ++ '@' :: b) = some b := by
  intro a
  induction a with
  | nil =>
    intro _
    rw [List.nil_append, emailDomainChars, if_pos ⟨rfl, hbne, hb⟩]
  | cons c a ih =>
    intro ha
    have hc : c ≠ '@' := fun h => ha (h ▸ List.mem_cons_self c a)
    rw [List.cons_append, emailDomainChars, if_neg (fun h => hc h.1)]
    exact ih (fun h => ha (List.mem_cons_of_mem c h))

/-- Claim C2 as amended: the preferred-domain-miss flag is 0 exactly when
a non-empty preferred domain is set and the code's domain of the email
equals its lowercasing; and that domain is the case-folded text after the
first `@` whose suffix is non-empty, runs to the end and contains no `>`
(the leftmost match of `@([^>]+)$`) — not after the last `@`. -/
theorem preferHit_spec (pd e : String) (a b : List Char)
    (ha : '@' ∉ a) (hb : '>' ∉ b) (hbne : b ≠ []) :
    (preferHit (some pd) e = 0 ↔ (pd ≠ "" ∧ email_domain e = strLower pd)) ∧
    email_domain (String.mk (a ++ '@' :: b)) = strLower (String.mk b) := by
  constructor
  · show (if pd ≠ "" ∧ email_domain e = strLower pd then 0 else 1) = 0 ↔ _
    by_cases h : pd ≠ "" ∧ email_domain e = strLower pd
    · rw [if_pos h]
      exact ⟨fun _ => h, fun _ => rfl⟩
    · rw [if_neg h]
      simp [h]
  · show email_domain (String.mk (a ++ '@' :: b)) = strLower (String.mk b)
    unfold email_domain
    rw [show (String.mk (a ++ '@' :: b)).data = a ++ '@' :: b from rfl,
      emailDomainChars_concat b hb hbne a ha]

/-- Witness for the amended claim C2 at `pd = b = "b@x.com"`,
`e = "a@b@x.com"`, `a = "a"`. -/
theorem preferHit_spec_witness :
    ('@' ∉ (['a'] : List Char) ∧ '>' ∉ (['b', '@', 'x', '.', 'c', 'o', 'm'] : List Char) ∧
      (['b', '@', 'x', '.', 'c', 'o', 'm'] : List Char) ≠ []) ∧
    ((preferHit (some "b@x.com") "a@b@x.com" = 0 ↔
        ("b@x.com" ≠ "" ∧ email_domain "a@b@x.com" = strLower "b@x.com")) ∧
      email_domain (String.mk (['a'] ++ '@' :: ['b', '@', 'x', '.', 'c', 'o', 'm'])) =
        strLower (String.mk ['b', '@', 'x', '.', 'c', 'o', 'm'])) :=
  ⟨⟨by decide, by decide, by decide⟩,
   preferHit_spec "b@x.com" "a@b@x.com" ['a'] ['b', '@', 'x', '.', 'c', 'o', 'm']
     (by decide) (by decide) (by decide)⟩

/-- Claim C5: column resolution tries, in order, (a) exact
case-insensitive match of the explicit name, (b) substring match of the
explicit name, (c) the role's built-in alias set, and (d) yields none when
all fail; the alias lookup is still attempted when an explicit name was
supplied but matched nothing. -/
theorem choose_col_resolution_order (hl : List String) (prefer : String)
    (explicit : Option String) :
    choose_col hl prefer explicit = resolveSpec hl prefer explicit := by
  unfold choose_col resolveSpec specExplicitExact specExplicitSub specAliasLookup
  by_cases hh : hl = []
  · subst hh
    cases explicit with
    | none => simp
    | some e => by_cases he : e = "" <;> simp [he]
  · rw [if_neg hh]
    cases explicit with
    | none => rfl
    | some e =>
      by_cases he : e = ""
      · simp [he]
      · simp only [if_neg he]
        cases hE : hl.findIdx? (fun h => h == strLower e) with
        | some i => simp [hE]
        | none =>
          cases hS : hl.findIdx? (fun h => containsSub (strLower e).data h.data) with
          | some i => simp [hE, hS]
          | none => simp [hE, hS]

/-- The running best of the delimiter-count fold is the start value or a
member of the candidate list. -/
theorem foldl_argmax_mem (f : Char → Nat) :
    ∀ (l : List Char) (b : Char),
      l.foldl (fun best c => if f c > f best then c else best) b = b ∨
      l.foldl (fun best c => if f c > f best then c else best) b ∈ l := by
  intro l
  induction l with
  | nil => intro b; exact Or.inl rfl
  | cons c t ih =>
    intro b
    rw [List.foldl_cons]
    rcases ih (if f c > f b then c else b) with h | h
    · rw [h]
      by_cases hc : f c > f b
      · rw [if_pos hc]; exact Or.inr (List.mem_cons_self c t)
      · rw [if_neg hc]; exact Or.inl rfl
    · exact Or.inr (List.mem_cons_of_mem c h)

/-- The fold's result scores at least the start value. -/
theorem foldl_argmax_ge_init (f : Char → Nat) :
    ∀ (l : List Char) (b : Char),
      f b ≤ f (l.foldl (fun best c => if f c > f best then c else best) b) := by
  intro l
  induction l with
  | nil => intro b; exact le_refl _
  | cons c t ih =>
    intro b
    rw [List.foldl_cons]
    refine le_trans ?_ (ih _)
    by_cases hc : f c > f b
    · rw [if_pos hc]; omega
    · rw [if_neg hc]

/-- The fold's result scores at least every candidate. -/
theorem foldl_argmax_ge_mem (f : Char → Nat) :
    ∀ (l : List Char) (b c : Char), c ∈ l →
      f c ≤ f (l.foldl (fun best d => if f d > f best then d else best) b) := by
  intro l
  induction l with
  | nil => intro b c hc; exact absurd hc (List.not_mem_nil c)
  | cons d t ih =>
    intro b c hc
    rw [List.foldl_cons]
    rcases List.mem_cons.mp hc with rfl | hc
    · refine le_trans ?_ (foldl_argmax_ge_init f t _)
      by_cases hcb : f c > f b
      · rw [if_pos hcb]
      · rw [if_neg hcb]; omega
    · exact ih _ c hc

/-- When every candidate scores 0, the fold keeps its start value. -/
theorem foldl_argmax_zero (f : Char → Nat) :
    ∀ (l : List Char) (b : Char), (∀ c ∈ l, f c = 0) →
      l.foldl (fun best c => if f c > f best then c else best) b = b := by
  intro l
  induction l with
  | nil => intro b _; rfl
  | cons c t ih =>
    intro b h
    have hc : f c = 0 := h c (List.mem_cons_self c t)
    rw [List.foldl_cons, if_neg (by omega)]
    exact ih b (fun d hd => h d (List.mem_cons_of_mem c hd))

/-- Claim C7: the fallback delimiter (used when structural sniffing
raises) is a candidate whose raw character count in the input prefix is
maximal, and it is `,` whenever the prefix is empty or every candidate's
count is zero. -/
theorem fallback_delimiter_spec (sample : String) :
    fallbackDelim sample ∈ CANDIDATES ∧
    (∀ c ∈ CANDIDATES, countChar sample c ≤ countChar sample (fallbackDelim sample)) ∧
    ((sample = "" ∨ ∀ c ∈ CANDIDATES, countChar sample c = 0) →
      fallbackDelim sample = ',') := by
  by_cases hs : sample = ""
  · subst hs
    refine ⟨by decide, ?_, fun _ => by decide⟩
    intro c hc
    have h0 : countChar "" c = 0 := rfl
    rw [h0]
    exact Nat.zero_le _
  · have hdef : fallbackDelim sample =
        List.foldl (fun best c => if countChar sample c > countChar sample best then c else best)
          ',' [';', '\t', '|', ':'] := by
      unfold fallbackDelim
      rw [if_neg hs]
    refine ⟨?_, ?_, ?_⟩
    · rw [hdef]
      rcases foldl_argmax_mem (countChar sample) [';', '\t', '|', ':'] ',' with h | h
      · rw [h]; decide
      · unfold CANDIDATES
        exact List.mem_cons_of_mem _ h
    · intro c hc
      rw [hdef]
      unfold CANDIDATES at hc
      rcases List.mem_cons.mp hc with rfl | hc
      · exact foldl_argmax_ge_init _ _ _
      · exact foldl_argmax_ge_mem _ _ _ _ hc
    · intro h
      rcases h with h | h
      · exact absurd h hs
      · rw [hdef]
        exact foldl_argmax_zero _ _ _
          (fun c hc => h c (by unfold CANDIDATES; exact List.mem_cons_of_mem _ hc))

/-- Witness for claim C7 at the empty prefix: the zero-count hypothesis is
satisfied and the chosen delimiter is the comma. -/
theorem fallback_delimiter_spec_witness :
    (("" : String) = "" ∨ ∀ c ∈ CANDIDATES, countChar "" c = 0) ∧ fallbackDelim "" = ',' :=
  ⟨Or.inl rfl, (fallback_delimiter_spec "").2.2 (Or.inl rfl)⟩

/-- One row of breach accounting agrees with the spec-side breach set:
the row's contribution commutes into the set built from the remaining
rows. -/
theorem breachUpd_union (ib : Option Nat) (br : Finset String) (row : List String)
    (rows : List (List String)) :
    breachUpd ib br row ∪ specBreachSet ib rows = br ∪ specBreachSet ib (row :: rows) := by
  cases ib with
  | none => rfl
  | some i =>
    show (if i < row.length then
        (if normalize (row.getD i "") = "" then br else insert (normalize (row.getD i "")) br)
      else br) ∪ specBreachSet (some i) rows =
      br ∪ (if i < row.length then
        (if normalize (row.getD i "") = "" then specBreachSet (some i) rows
         else insert (normalize (row.getD i "")) (specBreachSet (some i) rows))
      else specBreachSet (some i) rows)
    by_cases h1 : i < row.length
    · rw [if_pos h1, if_pos h1]
      by_cases h2 : normalize (row.getD i "") = ""
      · rw [if_pos h2, if_pos h2]
      · rw [if_neg h2, if_neg h2, Finset.insert_union, Finset.union_insert]
    · rw [if_neg h1, if_neg h1]

/-- The breach set accumulated by the row loop equals the initial set
united with the spec-side breach set — independently of the email, name,
first and last column indices and of the preferred domain. -/
theorem processRows_breaches (ie in_n if_n il ib : Option Nat) (pd : Option String) :
    ∀ (rows : List (List String)) (st : List Item × Finset String),
      (rows.foldl (step ie in_n if_n il ib pd) st).2 = st.2 ∪ specBreachSet ib rows := by
  intro rows
  induction rows with
  | nil =>
    intro st
    cases ib <;> simp [specBreachSet]
  | cons row rows ih =>
    intro st
    rw [List.foldl_cons, ih]
    exact breachUpd_union ib st.2 row rows

/-- Claim C3: the reported breach count equals the cardinality of the set
of distinct non-empty trimmed values at the resolved breach column index
across all data rows.  The right-hand side depends only on the resolved
breach column, so the count is the same whatever the email column
resolution and whether or not a row produced a display entry. -/
theorem breach_count_independent (cfg : Config) (header : List String)
    (rows : List (List String)) :
    (run cfg (header :: rows)).breached =
      (specBreachSet (resolveCols cfg header).breach rows).card := by
  have h2 : (scanOf cfg header rows).2 = specBreachSet (resolveCols cfg header).breach rows := by
    show (rows.foldl (step (resolveCols cfg header).email (resolveCols cfg header).name
      (resolveCols cfg header).first (resolveCols cfg header).last
      (resolveCols cfg header).breach cfg.prefer_domain) ([], ∅)).2 = _
    rw [processRows_breaches]
    exact Finset.empty_union _
  show (scanOf cfg header rows).2.card = _
  rw [h2]

/-- The dedup-and-truncate loop preserves the no-duplicates invariant of
its accumulator at every step. -/
theorem dedupTake_nodup (limit : Nat) :
    ∀ (l : List Item) (acc : List String), acc.Nodup → (dedupTake limit acc l).Nodup := by
  intro l
  induction l with
  | nil => intro acc h; exact h
  | cons it rest ih =>
    intro acc h
    rw [dedupTake]
    by_cases hm : it.2 ∈ acc
    · rw [if_pos hm]
      exact ih acc h
    · rw [if_neg hm]
      have hacc2 : (acc ++ [it.2]).Nodup := by
        rw [List.nodup_append]
        refine ⟨h, List.nodup_singleton _, ?_⟩
        intro a ha hb
        rw [List.mem_singleton] at hb
        subst hb
        exact hm ha
      by_cases hl : limit ≤ acc.length + 1
      · rw [if_pos hl]
        exact hacc2
      · rw [if_neg hl]
        exact ih _ hacc2

/-- Claim C6: for every input, the excerpt contains no two equal display
strings. -/
theorem excerpt_nodup (cfg : Config) (recs : List (List String)) :
    (run cfg recs).excerpt.Nodup := by
  cases recs with
  | nil => exact List.nodup_nil
  | cons header rows =>
    show (dedupTake cfg.limit [] (sortedOf cfg header rows)).Nodup
    exact dedupTake_nodup cfg.limit _ [] List.nodup_nil

/-- The dedup-and-truncate loop only extends its accumulator: the new
elements are displays of scanned items that were not already present. -/
theorem dedupTake_ext (limit : Nat) :
    ∀ (l : List Item) (acc : List String),
      ∃ E : List String, dedupTake limit acc l = acc ++ E ∧
        ∀ d ∈ E, d ∉ acc ∧ ∃ it ∈ l, it.2 = d := by
  intro l
  induction l with
  | nil =>
    intro acc
    exact ⟨[], by simp [dedupTake], by simp⟩
  | cons it rest ih =>
    intro acc
    rw [dedupTake]
    by_cases hm : it.2 ∈ acc
    · rw [if_pos hm]
      obtain ⟨E, hE, hprop⟩ := ih acc
      refine ⟨E, hE, fun d hd => ?_⟩
      obtain ⟨h1, it2, hit2, he⟩ := hprop d hd
      exact ⟨h1, it2, List.mem_cons_of_mem _ hit2, he⟩
    · rw [if_neg hm]
      by_cases hl : limit ≤ acc.length + 1
      · rw [if_pos hl]
        refine ⟨[it.2], rfl, fun d hd => ?_⟩
        rw [List.mem_singleton] at hd
        subst hd
        exact ⟨hm, it, List.mem_cons_self _ _, rfl⟩
      · rw [if_neg hl]
        obtain ⟨E, hE, hprop⟩ := ih (acc ++ [it.2])
        refine ⟨it.2 :: E, by rw [hE]; simp, fun d hd => ?_⟩
        rcases List.mem_cons.mp hd with rfl | hd
        · exact ⟨hm, it, List.mem_cons_self _ _, rfl⟩
        · obtain ⟨h1, it2, hit2, he⟩ := hprop d hd
          exact ⟨fun hc => h1 (List.mem_append_left _ hc), it2,
            List.mem_cons_of_mem _ hit2, he⟩

/-- Scanning a concatenated working list, the emitted excerpt splits into
a first block drawn from the first part and a second block drawn from the
second part whose elements are displays of no item of the first part. -/
theorem dedupTake_split (limit : Nat) :
    ∀ (l1 l2 : List Item) (acc : List String),
      ∃ E0 E1 : List String,
        dedupTake limit acc (l1 ++ l2) = acc ++ E0 ++ E1 ∧
        (∀ d ∈ E0, d ∉ acc ∧ ∃ it ∈ l1, it.2 = d) ∧
        (∀ d ∈ E1, d ∉ acc ∧ (∃ it ∈ l2, it.2 = d) ∧ ∀ it ∈ l1, it.2 ≠ d) := by
  intro l1
  induction l1 with
  | nil =>
    intro l2 acc
    obtain ⟨E, hE, hprop⟩ := dedupTake_ext limit l2 acc
    refine ⟨[], E, by simpa using hE, by simp, fun d hd => ?_⟩
    obtain ⟨h1, hsrc⟩ := hprop d hd
    exact ⟨h1, hsrc, by simp⟩
  | cons it t ih =>
    intro l2 acc
    rw [List.cons_append, dedupTake]
    by_cases hm : it.2 ∈ acc
    · rw [if_pos hm]
      obtain ⟨E0, E1, hEq, h0, h1⟩ := ih l2 acc
      refine ⟨E0, E1, hEq, fun d hd => ?_, fun d hd => ?_⟩
      · obtain ⟨hna, it2, hit2, he⟩ := h0 d hd
        exact ⟨hna, it2, List.mem_cons_of_mem _ hit2, he⟩
      · obtain ⟨hna, hsrc, hne⟩ := h1 d hd
        refine ⟨hna, hsrc, fun it2 hit2 => ?_⟩
        rcases List.mem_cons.mp hit2 with rfl | hit2
        · exact fun hEq2 => hna (hEq2 ▸ hm)
        · exact hne it2 hit2
    · rw [if_neg hm]
      by_cases hl : limit ≤ acc.length + 1
      · rw [if_pos hl]
        refine ⟨[it.2], [], by simp, fun d hd => ?_, by simp⟩
        rw [List.mem_singleton] at hd
        subst hd
        exact ⟨hm, it, List.mem_cons_self _ _, rfl⟩
      · rw [if_neg hl]
        obtain ⟨E0, E1, hEq, h0, h1⟩ := ih l2 (acc ++ [it.2])
        refine ⟨it.2 :: E0, E1, by rw [hEq]; simp, fun d hd => ?_, fun d hd => ?_⟩
        · rcases List.mem_cons.mp hd with rfl | hd
          · exact ⟨hm, it, List.mem_cons_self _ _, rfl⟩
          · obtain ⟨hna, it2, hit2, he⟩ := h0 d hd
            exact ⟨fun hc => hna (List.mem_append_left _ hc), it2,
              List.mem_cons_of_mem _ hit2, he⟩
        · obtain ⟨hna, hsrc, hne⟩ := h1 d hd
          refine ⟨fun hc => hna (List.mem_append_left _ hc), hsrc, fun it2 hit2 => ?_⟩
          rcases List.mem_cons.mp hit2 with rfl | hit2
          · exact fun hd2 => hna (hd2 ▸ List.mem_append_right _ (List.mem_cons_self _ _))
          · exact hne it2 hit2

/-- In a `keyLe`-sorted working list, every item beyond the leading block
of preferred-domain hits has a non-zero miss flag. -/
theorem mem_dropWhile_flag_ne :
    ∀ l : List Item, l.Sorted itemLe →
      ∀ it ∈ l.dropWhile (fun x => x.1.1 == 0), it.1.1 ≠ 0 := by
  intro l
  induction l with
  | nil =>
    intro _ it hit
    simp [List.dropWhile] at hit
  | cons a t ih =>
    intro hs it hit
    by_cases ha : a.1.1 = 0
    · rw [List.dropWhile_cons, if_pos (by simp [ha])] at hit
      exact ih hs.of_cons it hit
    · rw [List.dropWhile_cons, if_neg (by simp [ha])] at hit
      rcases List.mem_cons.mp hit with rfl | hit
      · exact ha
      · have hrel : itemLe a it := List.rel_of_sorted_cons hs it hit
        unfold itemLe keyLe at hrel
        rcases hrel with h | ⟨h, -⟩ <;> omega

/-- Claim C9: when a non-empty preferred domain D is configured, (i) in
the sorted working list every entry whose miss flag is 0 is placed before
every entry whose miss flag is 1 and whose name-presence flag is equal,
(ii) the excerpt splits into a leading block of displays of flag-0 entries
followed by displays belonging to no flag-0 entry, and (iii) an entry's
miss flag is 0 exactly when the code's domain of its email equals the
lowercased D. -/
theorem preferred_domain_sorts_first (cfg : Config) (header : List String)
    (rows : List (List String)) (D : String)
    (hD : cfg.prefer_domain = some D) (hne : D ≠ "") :
    (∀ (i j : Nat) (hi : i < (sortedOf cfg header rows).length)
        (hj : j < (sortedOf cfg header rows).length),
        ((sortedOf cfg header rows).get ⟨i, hi⟩).1.1 = 0 →
        ((sortedOf cfg header rows).get ⟨j, hj⟩).1.1 = 1 →
        ((sortedOf cfg header rows).get ⟨i, hi⟩).1.2.1 =
          ((sortedOf cfg header rows).get ⟨j, hj⟩).1.2.1 →
        i < j) ∧
    (∃ E0 E1 : List String, excerptOf cfg header rows = E0 ++ E1 ∧
        (∀ d ∈ E0, ∃ it ∈ sortedOf cfg header rows, it.1.1 = 0 ∧ it.2 = d) ∧
        (∀ d ∈ E1, ∀ it ∈ sortedOf cfg header rows, it.1.1 = 0 → it.2 ≠ d)) ∧
    (∀ e : String, preferHit cfg.prefer_domain e = 0 ↔ email_domain e = strLower D) := by
  have hsorted : (sortedOf cfg header rows).Sorted itemLe :=
    List.sorted_insertionSort itemLe (scanOf cfg header rows).1
  refine ⟨?_, ?_, ?_⟩
  · intro i j hi hj h0 h1 _
    by_contra hij
    have hle : i = j ∨ j < i := by omega
    rcases hle with heq | hlt
    · have hfin : (⟨i, hi⟩ : Fin (sortedOf cfg header rows).length) = ⟨j, hj⟩ :=
        Fin.ext heq
      rw [hfin] at h0
      exact absurd (h0.symm.trans h1) (by decide)
    · have hrel : itemLe ((sortedOf cfg header rows).get ⟨j, hj⟩)
          ((sortedOf cfg header rows).get ⟨i, hi⟩) :=
        List.pairwise_iff_get.mp hsorted ⟨j, hj⟩ ⟨i, hi⟩ hlt
      unfold itemLe keyLe at hrel
      rw [h0, h1] at hrel
      rcases hrel with h | ⟨h, -⟩ <;> omega
  · have hsplit : (sortedOf cfg header rows).takeWhile (fun x => x.1.1 == 0) ++
        (sortedOf cfg header rows).dropWhile (fun x => x.1.1 == 0) =
        sortedOf cfg header rows :=
      List.takeWhile_append_dropWhile _ _
    obtain ⟨E0, E1, hEq, h0, h1⟩ := dedupTake_split cfg.limit
      ((sortedOf cfg header rows).takeWhile (fun x => x.1.1 == 0))
      ((sortedOf cfg header rows).dropWhile (fun x => x.1.1 == 0)) []
    rw [hsplit] at hEq
    refine ⟨E0, E1, by simpa using hEq, fun d hd => ?_, fun d hd it hit hflag => ?_⟩
    · obtain ⟨-, it, hit, he⟩ := h0 d hd
      refine ⟨it, (List.takeWhile_sublist _).subset hit, ?_, he⟩
      simpa using List.mem_takeWhile_imp hit
    · rw [← hsplit] at hit
      rcases List.mem_append.mp hit with hmem | hmem
      · exact (h1 d hd).2.2 it hmem
      · exact absurd hflag (mem_dropWhile_flag_ne _ hsorted it hmem)
  · intro e
    rw [hD]
    show (if D ≠ "" ∧ email_domain e = strLower D then 0 else 1) = 0 ↔ _
    by_cases hdom : email_domain e = strLower D
    · rw [if_pos ⟨hne, hdom⟩]
      simp [hdom]
    · rw [if_neg (fun hc => hdom hc.2)]
      simp [hdom]

/-- Witness for claim C9 at a concrete run: preferred domain `x.com`, one
matching row `a@x.com` and one non-matching row `b@y.com`. -/
theorem preferred_domain_sorts_first_witness :
    ((Config.mk 10 none none none none none (some "x.com")).prefer_domain = some "x.com" ∧
      ("x.com" : String) ≠ "") ∧
    ((∀ (i j : Nat)
        (hi : i < (sortedOf ⟨10, none, none, none, none, none, some "x.com"⟩ ["email"]
          [["a@x.com"], ["b@y.com"]]).length)
        (hj : j < (sortedOf ⟨10, none, none, none, none, none, some "x.com"⟩ ["email"]
          [["a@x.com"], ["b@y.com"]]).length),
        ((sortedOf ⟨10, none, none, none, none, none, some "x.com"⟩ ["email"]
          [["a@x.com"], ["b@y.com"]]).get ⟨i, hi⟩).1.1 = 0 →
        ((sortedOf ⟨10, none, none, none, none, none, some "x.com"⟩ ["email"]
          [["a@x.com"], ["b@y.com"]]).get ⟨j, hj⟩).1.1 = 1 →
        ((sortedOf ⟨10, none, none, none, none, none, some "x.com"⟩ ["email"]
          [["a@x.com"], ["b@y.com"]]).get ⟨i, hi⟩).1.2.1 =
          ((sortedOf ⟨10, none, none, none, none, none, some "x.com"⟩ ["email"]
            [["a@x.com"], ["b@y.com"]]).get ⟨j, hj⟩).1.2.1 →
        i < j) ∧
      (∃ E0 E1 : List String,
          excerptOf ⟨10, none, none, none, none, none, some "x.com"⟩ ["email"]
            [["a@x.com"], ["b@y.com"]] = E0 ++ E1 ∧
          (∀ d ∈ E0, ∃ it ∈ sortedOf ⟨10, none, none, none, none, none, some "x.com"⟩
            ["email"] [["a@x.com"], ["b@y.com"]], it.1.1 = 0 ∧ it.2 = d) ∧
          (∀ d ∈ E1, ∀ it ∈ sortedOf ⟨10, none, none, none, none, none, some "x.com"⟩
            ["email"] [["a@x.com"], ["b@y.com"]], it.1.1 = 0 → it.2 ≠ d)) ∧
      (∀ e : String,
        preferHit (Config.mk 10 none none none none none
          (some "x.com")).prefer_domain e = 0 ↔ email_domain e = strLower "x.com")) :=
  ⟨⟨rfl, by decide⟩,
   preferred_domain_sorts_first ⟨10, none, none, none, none, none, some "x.com"⟩
     ["email"] [["a@x.com"], ["b@y.com"]] "x.com" rfl (by decide)⟩

end Dehashed
